import Mathlib

/-!
Verification development for the CosmoVision memecoin pipeline.

The embedding models the data-refresh and persistence pipeline:
the SQLite-backed store of `database.py` (rows in rowid order, contract
UNIQUE), the scraper of `scraper.py` and the metrics pass of
`blockchain.py`.  Strings are embedded as lists of characters so that
every definition evaluates by kernel reduction.
-/

/-- Strings of the model: plain character lists (Python `str` / SQLite TEXT). -/
abbrev Str := List Char

/-- Converts a Lean string literal into a model string. -/
def str (s : String) : Str := s.data

/-- ASCII lower-casing of one character, as SQLite's default LIKE folding does. -/
def asciiLower (c : Char) : Char :=
  if 'A' ≤ c ∧ c ≤ 'Z' then Char.ofNat (c.toNat + 32) else c

/-- ASCII lower-casing of a whole string. -/
def lowerStr (s : Str) : Str := s.map asciiLower

/-- Boolean test that `q` starts the string `s` (character-wise equality). -/
def leadsWith : Str → Str → Bool
  | [], _ => true
  | _ :: _, [] => false
  | a :: q, b :: s => (a == b) && leadsWith q s

/-- Boolean test that `q` occurs contiguously somewhere inside `s`. -/
def occursIn (q : Str) : Str → Bool
  | [] => leadsWith q []
  | c :: s => leadsWith q (c :: s) || occursIn q s

/-- Case-insensitive (ASCII) substring test: the relation named by the spec's
phrase "case-insensitive substring match". -/
def substrCI (q s : Str) : Bool := occursIn (lowerStr q) (lowerStr s)

/-- All suffixes of a string, longest first, ending with `[]`. -/
def tails : Str → List Str
  | [] => [[]]
  | c :: s => (c :: s) :: tails s

/-- SQLite LIKE pattern matching with default ASCII case folding:
`%` matches any sequence, `_` matches one character, anything else
matches one character up to ASCII case.  This is the semantics of the
`LIKE ?` operator used by `search_coin` in `database.py`. -/
def likeMatch : Str → Str → Bool
  | [], s => s.isEmpty
  | p :: ps, s =>
    if p = '%' then (tails s).any (fun t => likeMatch ps t)
    else if p = '_' then
      (match s with
       | [] => false
       | _ :: t => likeMatch ps t)
    else
      (match s with
       | [] => false
       | c :: t => (asciiLower p == asciiLower c) && likeMatch ps t)

/-- Query strings containing no LIKE metacharacter. -/
def wildcardFree (q : Str) : Prop := ∀ c ∈ q, c ≠ '%' ∧ c ≠ '_'

instance (q : Str) : Decidable (wildcardFree q) := by
  unfold wildcardFree; infer_instance

/-- Python whitespace recognised by `str.strip()` (ASCII fragment). -/
def isPySpace (c : Char) : Bool :=
  c = ' ' || c = '\t' || c = '\n' || c = '\x0b' || c = '\x0c' || c = '\r'

/-- Python `str.strip()`: removes leading and trailing whitespace. -/
def pyStrip (t : Str) : Str :=
  ((t.dropWhile isPySpace).reverse.dropWhile isPySpace).reverse

/-- ASCII decimal digit test (`str.isdigit` restricted to ASCII input). -/
def isAsciiDigit (c : Char) : Bool := '0' ≤ c && c ≤ '9'

/-- Value of a digit string, most significant first. -/
def digitsToNat (t : Str) : Nat :=
  t.foldl (fun n c => 10 * n + (c.toNat - '0'.toNat)) 0

/-- Exact value of a decimal literal made of digits and at most one dot.
Python's `float()` rounds to binary; the rounding is abstracted, exactness
is irrelevant to every claim (no claim inspects a parsed numeric value). -/
def decimalVal (t : Str) : Rat :=
  (digitsToNat (t.takeWhile (fun c => c ≠ '.')) : Rat) +
    (digitsToNat ((t.dropWhile (fun c => c ≠ '.')).drop 1) : Rat) /
      (10 : Rat) ^ ((t.dropWhile (fun c => c ≠ '.')).drop 1).length

/-- Helper for `lastSeg`: accumulates the current segment, resetting at `/`. -/
def lastSegAux (cur : Str) : Str → Str
  | [] => cur
  | c :: t => if c = '/' then lastSegAux [] t else lastSegAux (cur ++ [c]) t

/-- Python `href.split('/')[-1]`: the text after the last slash. -/
def lastSeg (h : Str) : Str := lastSegAux [] h

/-- Test for the scraper's BSC filter `contract.startswith('0x')`. -/
def startsWith0x : Str → Bool
  | '0' :: 'x' :: _ => true
  | _ => false

/-- The scraper's fallback contract value for elements without a link
(`scraper.py` line 107). -/
def zeroAddr : Str := str "0x0000000000000000000000000000000000000000"

/-- One row of the `coins` table of `database.py` (`initialize_database`
schema): `name`/`symbol`/`contract` are NOT NULL, the remaining columns are
nullable; `contract` is UNIQUE.  The AUTOINCREMENT rowid is represented by
the row's position in the store list (SQLite's native scan order). -/
structure Row where
  name : Str
  symbol : Str
  contract : Str
  price : Option Rat
  holders : Option Int
  transfers_24h : Option Int
  last_updated : Option Int
deriving DecidableEq

/-- One record produced by the scraper and consumed by `update_coin_data`:
the dict `{name, symbol, contract, price, last_updated}` of `scraper.py`. -/
structure Coin where
  name : Str
  symbol : Str
  contract : Str
  price : Rat
  last_updated : Int
deriving DecidableEq

/-- The persistent store: the `coins` table in rowid order. -/
abbrev Store := List Row

/-- The schema's UNIQUE constraint on `contract`: no two rows share one. -/
def Uniq (s : Store) : Prop := (s.map Row.contract).Nodup

instance (s : Store) : Decidable (Uniq s) := by
  unfold Uniq; infer_instance

/-- Number of rows of `s` holding contract `x`. -/
def countContract (s : Store) (x : Str) : Nat :=
  (s.filter (fun r => r.contract == x)).length

/-- Effect of the upsert's `DO UPDATE SET` clause on one row
(`database.py` lines 48-52): overwrites `name`, `symbol`, `price`,
`last_updated` of the conflicting row, touching nothing else. -/
def owRow (c : Coin) (r : Row) : Row :=
  if r.contract = c.contract then
    { r with name := c.name, symbol := c.symbol,
             price := some c.price, last_updated := some c.last_updated }
  else r

/-- One `INSERT ... ON CONFLICT(contract) DO UPDATE` statement of
`update_coin_data`: if the contract is present the conflicting row is
updated in place, otherwise a fresh row (metrics columns NULL) is appended. -/
def upsertOne (s : Store) (c : Coin) : Store :=
  if s.any (fun r => r.contract == c.contract) then s.map (owRow c)
  else s ++ [{ name := c.name, symbol := c.symbol, contract := c.contract,
               price := some c.price, holders := none, transfers_24h := none,
               last_updated := some c.last_updated }]

/-- `update_coin_data` of `database.py`: one upsert per record of the batch,
in batch order. -/
def update_coin_data (s : Store) (coins : List Coin) : Store :=
  coins.foldl upsertOne s

/-- `update_blockchain_metrics` of `database.py`: `UPDATE coins SET holders,
transfers_24h, last_updated WHERE contract = ?` — rewrites the metrics columns
of every row matching the contract, leaves all other rows alone. -/
def update_blockchain_metrics (s : Store) (contract : Str)
    (holders transfers_24h timestamp : Int) : Store :=
  s.map (fun r =>
    if r.contract = contract then
      { r with holders := some holders, transfers_24h := some transfers_24h,
               last_updated := some timestamp }
    else r)

/-- `get_all_contracts` of `database.py`: `SELECT contract FROM coins`
in native scan order. -/
def get_all_contracts (s : Store) : List Str := s.map Row.contract

/-- `search_coin` of `database.py`: `SELECT ... WHERE name LIKE '%q%' OR
symbol LIKE '%q%'` followed by `fetchone()` — the first row in native order
whose name or symbol matches the LIKE pattern, or `none`.  The returned dict
carries exactly the seven row fields, so the row itself is returned. -/
def search_coin (s : Store) (query : Str) : Option Row :=
  s.find? (fun r =>
    likeMatch ('%' :: query ++ ['%']) r.name ||
    likeMatch ('%' :: query ++ ['%']) r.symbol)

/-- Modelled from the spec: `findByNameOrSymbol`, a case-insensitive
substring match of the query against name OR symbol, returning the first
match under the store's native ordering.  Written from the spec's words, to
be compared with `search_coin` which is written from the source. -/
def searchSpec (s : Store) (query : Str) : Option Row :=
  s.find? (fun r => substrCI query r.name || substrCI query r.symbol)

/-- Outcome of one guarded network interaction in `blockchain.py`: either the
parsed payload, or `exn` — any exception or timeout raised inside the `try`
block (request failure, JSON error, missing key, `int()` parse failure). -/
inductive NetResult (α : Type) where
  | ok (data : α)
  | exn
deriving DecidableEq

/-- Payload consumed by `fetch_holders_count`: the API's `status` string, the
optional `countTokenHolders` field (parsed by `int()`), and the `result`
list, of which only the length is used. -/
structure HoldersResponse where
  status : Str
  countTokenHolders : Option Int
  result : List Unit
deriving DecidableEq

/-- Payload consumed by `fetch_transfers_24h`: the API's `status` string and
the `timeStamp` of each returned transfer (parsed by `int()`). -/
structure TransfersResponse where
  status : Str
  result : List Int
deriving DecidableEq

/-- The literal status string `'1'` the API returns on success. -/
def statusOk : Str := str "1"

/-- `fetch_holders_count` of `blockchain.py`: on any exception return 0; on
an unsuccessful status return 0; otherwise `countTokenHolders` when present,
else the length of the returned holder sample. -/
def fetch_holders_count : NetResult HoldersResponse → Int
  | .exn => 0
  | .ok data =>
    if data.status = statusOk then
      match data.countTokenHolders with
      | some n => n
      | none => (data.result.length : Int)
    else 0

/-- `fetch_transfers_24h` of `blockchain.py`: on any exception return 0; on
an unsuccessful status return 0; otherwise the count of transfers strictly
newer than `now - 86400`, where `now` is `int(time.time())` taken inside the
call. -/
def fetch_transfers_24h (now : Int) : NetResult TransfersResponse → Int
  | .exn => 0
  | .ok data =>
    if data.status = statusOk then
      ((data.result.filter (fun ts => now - 86400 < ts)).length : Int)
    else 0

/-- The holder-count fetch failed: the request raised or timed out, or the
API reported an unsuccessful status. -/
def holderFetchFailed : NetResult HoldersResponse → Prop
  | .exn => True
  | .ok data => data.status ≠ statusOk

instance (o : NetResult HoldersResponse) : Decidable (holderFetchFailed o) := by
  cases o <;> (unfold holderFetchFailed; infer_instance)

/-- Environment one loop iteration of `update_blockchain_data` observes for
its contract: the two network outcomes, the clock readings (`time.time()`
inside the transfer fetch and at the database write), and whether the
iteration raises an unexpected exception.  The fetches swallow their own
exceptions, so the remaining raise point modelled is the database write —
the exception `update_blockchain_data`'s `except` clause exists to catch. -/
structure ContractEnv where
  holdersResult : NetResult HoldersResponse
  transfersResult : NetResult TransfersResponse
  nowAtTransfers : Int
  nowAtWrite : Int
  writeRaises : Bool
deriving DecidableEq

/-- Observable adapter/store interactions of one metrics pass, in order. -/
inductive Event where
  | holderCall (contract : Str)
  | transferCall (contract : Str)
  | dbWrite (contract : Str) (holders transfers_24h timestamp : Int)
deriving DecidableEq

/-- One iteration of the loop of `update_blockchain_data` (`blockchain.py`
lines 132-149): fetch holders, fetch transfers, write the metrics; an
unexpected exception is caught and the iteration contributes no write. -/
def processContract (env : Str → ContractEnv) (acc : Store × List Event)
    (contract : Str) : Store × List Event :=
  let e := env contract
  let holders := fetch_holders_count e.holdersResult
  let transfers := fetch_transfers_24h e.nowAtTransfers e.transfersResult
  if e.writeRaises then
    (acc.1, acc.2 ++ [Event.holderCall contract, Event.transferCall contract])
  else
    (update_blockchain_metrics acc.1 contract holders transfers e.nowAtWrite,
     acc.2 ++ [Event.holderCall contract, Event.transferCall contract,
               Event.dbWrite contract holders transfers e.nowAtWrite])

/-- `update_blockchain_data` of `blockchain.py`: read all contracts, return
immediately when there are none, otherwise process each in order. -/
def update_blockchain_data (env : Str → ContractEnv) (s : Store) :
    Store × List Event :=
  let contracts := get_all_contracts s
  if contracts.isEmpty then (s, [])
  else contracts.foldl (processContract env) (s, [])

/-- Events one iteration appends for its contract. -/
def eventsFor (env : Str → ContractEnv) (contract : Str) : List Event :=
  let e := env contract
  [Event.holderCall contract, Event.transferCall contract] ++
    (if e.writeRaises then []
     else [Event.dbWrite contract (fetch_holders_count e.holdersResult)
             (fetch_transfers_24h e.nowAtTransfers e.transfersResult)
             e.nowAtWrite])

/-- Trace of a whole pass over a contract list, in order. -/
def iterTrace (env : Str → ContractEnv) : List Str → List Event
  | [] => []
  | c :: t => eventsFor env c ++ iterTrace env t

/-- Store effect of one iteration, with the trace projected away. -/
def stepStore (env : Str → ContractEnv) (s : Store) (contract : Str) : Store :=
  let e := env contract
  if e.writeRaises then s
  else update_blockchain_metrics s contract (fetch_holders_count e.holdersResult)
    (fetch_transfers_24h e.nowAtTransfers e.transfersResult) e.nowAtWrite

/-- Origin of the contract text in a scraped element: an anchor with a
bscscan href, or an anchor carrying only text. -/
inductive ContractSrc where
  | hrefLink (href : Str)
  | textLink (t : Str)
deriving DecidableEq

deriving instance DecidableEq for Except

/-- One element of the scraper's selector cascade, reduced to what lines
85-127 of `scraper.py` read from it: optional name/symbol/price texts, and
the contract-anchor lookup, whose `.error` case is the `AttributeError`
raised when `element.find('td', class_='contract')` returns `None`. -/
structure CoinElement where
  nameText : Option Str
  symbolText : Option Str
  contractLookup : Except Unit (Option ContractSrc)
  priceText : Option Str
deriving DecidableEq

/-- Python price extraction of `scraper.py` lines 110-114: strip, drop `$`
and `,`; when the dot-free residue is nonempty pure digits, `float()` it —
which itself raises `ValueError` when more than one dot remains (the
element is then skipped by the per-element handler); otherwise 0.0. -/
def pyFloatPrice : Option Str → Except Unit Rat
  | none => Except.ok 0
  | some t =>
    let priceText := (pyStrip t).filter (fun c => c ≠ '$' ∧ c ≠ ',')
    let digitsOnly := priceText.filter (fun c => c ≠ '.')
    if priceText ≠ [] ∧ digitsOnly ≠ [] ∧ digitsOnly.all isAsciiDigit then
      if (priceText.filter (fun c => c = '.')).length ≤ 1 then
        Except.ok (decimalVal priceText)
      else Except.error ()
    else Except.ok 0

/-- Per-element body of the scraper loop (`scraper.py` lines 85-127): extract
name/symbol with defaults, extract the contract (href tail, anchor text, or
the zero-address fallback), parse the price, and keep the record only when
the contract starts with `0x`.  `none` covers both the caught per-element
exception and the failed `0x` filter — in either case no record is added. -/
def processElement (ts : Int) (e : CoinElement) : Option Coin :=
  match e.contractLookup with
  | .error _ => none
  | .ok contractEl =>
    let name := match e.nameText with
      | some t => pyStrip t
      | none => str "Unknown"
    let symbol := match e.symbolText with
      | some t => pyStrip t
      | none => str "UNK"
    let contract := match contractEl with
      | some (.hrefLink href) => if href.contains '/' then lastSeg href else href
      | some (.textLink t) => pyStrip t
      | none => zeroAddr
    match pyFloatPrice e.priceText with
    | .error _ => none
    | .ok price =>
      if startsWith0x contract then
        some { name := name, symbol := symbol, contract := contract,
               price := price, last_updated := ts }
      else none

/-- What the page parse of `scrape_grafun` yields once the selector cascade
has run: the candidate elements. -/
structure ScrapePage where
  elements : List CoinElement
deriving DecidableEq

/-- `scrape_grafun` of `scraper.py`: any request or unexpected error yields
`[]`; an empty selector cascade yields `[]`; otherwise each element is
processed, skipping the ones that raise or fail the `0x` filter.  `now` is
`int(time.time())` captured at the top of the scrape. -/
def scrape_grafun (now : Int) : Except Unit ScrapePage → List Coin
  | .error _ => []
  | .ok page =>
    if page.elements.isEmpty then []
    else page.elements.filterMap (processElement now)

/-- `run_scraper` of `scraper.py`: scrape, and touch the database only when
at least one coin came back. -/
def run_scraper (now : Int) (outcome : Except Unit ScrapePage) (s : Store) :
    Store :=
  let coins := scrape_grafun now outcome
  if coins.isEmpty then s
  else update_coin_data s coins

/-- Last record of the batch carrying contract `x` — the record whose
values the final `DO UPDATE` for `x` leaves in place. -/
def lastMatch (b : List Coin) (x : Str) : Option Coin :=
  match b with
  | [] => none
  | c :: bs =>
    match lastMatch bs x with
    | some c' => some c'
    | none => if c.contract = x then some c else none

/-! ## Concrete values and derived combinators used by the proofs -/

/-- The `DO UPDATE SET` assignment itself, unconditionally applied. -/
def setL (c : Coin) (r : Row) : Row :=
  { r with name := c.name, symbol := c.symbol,
           price := some c.price, last_updated := some c.last_updated }

/-- Row-level effect of a whole batch: the conflict updates of each record,
in batch order. -/
def owFold (b : List Coin) (r : Row) : Row :=
  b.foldl (fun r c => owRow c r) r

/-- A concrete store used by the witnesses below. -/
def w0 : Row :=
  { name := str "Doge2", symbol := str "DOGE2", contract := str "0xAAA",
    price := some 1, holders := some 5, transfers_24h := some 7,
    last_updated := some 2000 }

/-- A second concrete row with a distinct contract. -/
def w1 : Row :=
  { name := str "Pepe", symbol := str "PEPE", contract := str "0xBBB",
    price := some 3, holders := none, transfers_24h := none,
    last_updated := none }

/-- First listing record of the C1 scenario. -/
def coinA : Coin :=
  { name := str "Doge2", symbol := str "DOGE2", contract := str "0xAAA",
    price := 1, last_updated := 1000 }

/-- Re-listing record of the C1 scenario: same contract, new price, newer
scrape timestamp. -/
def coinA2 : Coin :=
  { name := str "Doge2", symbol := str "DOGE2", contract := str "0xAAA",
    price := 2, last_updated := 3000 }

/-- Store of the C1 scenario after upsert followed by a metrics update. -/
def s2c1 : Store :=
  update_blockchain_metrics (update_coin_data [] [coinA]) (str "0xAAA") 500 42 2000

/-- A fresh-contract record used by the C2 witness. -/
def coinC : Coin :=
  { name := str "Wif", symbol := str "WIF", contract := str "0xCCC",
    price := 4, last_updated := 5000 }

/-- A scraped element carrying no contract anchor at all. -/
def elemNoLink : CoinElement :=
  { nameText := none, symbolText := none, contractLookup := Except.ok none,
    priceText := none }

/-- A page made of two linkless elements. -/
def pageZ : ScrapePage := { elements := [elemNoLink, elemNoLink] }

/-- The record both linkless elements produce. -/
def coinZero : Coin :=
  { name := str "Unknown", symbol := str "UNK", contract := zeroAddr,
    price := 0, last_updated := 7 }

/-- Environment of the C5 witness: the holder fetch times out for every
contract, the transfer fetch succeeds, no iteration raises. -/
def envFail : Str → ContractEnv := fun _ =>
  { holdersResult := NetResult.exn,
    transfersResult := NetResult.ok { status := str "1", result := [90000] },
    nowAtTransfers := 90050, nowAtWrite := 90100, writeRaises := false }

/-- Environment of the C6 witness: the first contract's iteration raises at
the database write, the second contract's iteration succeeds. -/
def envMix : Str → ContractEnv := fun c =>
  if c = str "0xAAA" then
    { holdersResult := NetResult.exn, transfersResult := NetResult.exn,
      nowAtTransfers := 0, nowAtWrite := 100, writeRaises := true }
  else
    { holdersResult := NetResult.ok
        { status := str "1", countTokenHolders := some 9, result := [] },
      transfersResult := NetResult.ok { status := str "1", result := [80] },
      nowAtTransfers := 60, nowAtWrite := 100, writeRaises := false }

/-! ## General helper lemmas -/

/-- A map whose function fixes every member is the identity. -/
theorem map_id_of_mem {α : Type} {f : α → α} :
    ∀ s : List α, (∀ r ∈ s, f r = r) → s.map f = s := by
  intro s
  induction s with
  | nil => intro _; rfl
  | cons a t ih =>
    intro h
    simp only [List.map_cons, h a (by simp)]
    rw [ih (fun r hr => h r (by simp [hr]))]

/-! ## C3: missing-contract tolerance -/

/-- C3: for every store state and every contract identifier not present in
the store, `update_blockchain_metrics` on that contract completes without
raising (it is a total function) and leaves every row of the store
unchanged. -/
theorem C3_missing_contract_noop (s : Store) (c : Str) (h tr tm : Int)
    (habs : ∀ r ∈ s, r.contract ≠ c) :
    update_blockchain_metrics s c h tr tm = s := by
  unfold update_blockchain_metrics
  apply map_id_of_mem
  intro r hr
  simp [habs r hr]

/-- Witness for C3 at a concrete store and absent contract. -/
theorem C3_witness :
    (∀ r ∈ [w0], r.contract ≠ str "0xZ") ∧
      update_blockchain_metrics [w0] (str "0xZ") 1 2 3 = [w0] :=
  ⟨by decide, C3_missing_contract_noop [w0] (str "0xZ") 1 2 3 (by decide)⟩

/-! ## C4: metrics-phase frame condition -/

/-- C4: for every store state, contract and argument values,
`update_blockchain_metrics` preserves the store's length and, row by row,
leaves `name`, `symbol`, `price` and `contract` unchanged; a row whose
contract differs from the updated one is entirely unchanged. -/
theorem C4_metrics_phase_frame (s : Store) (c : Str) (h tr tm : Int) :
    (update_blockchain_metrics s c h tr tm).length = s.length ∧
    ∀ (i : Nat) (r : Row), s[i]? = some r →
      ∃ r', (update_blockchain_metrics s c h tr tm)[i]? = some r' ∧
        r'.name = r.name ∧ r'.symbol = r.symbol ∧ r'.price = r.price ∧
        r'.contract = r.contract ∧ (r.contract ≠ c → r' = r) := by
  constructor
  · simp [update_blockchain_metrics]
  · intro i r hi
    unfold update_blockchain_metrics
    rw [List.getElem?_map, hi, Option.map_some']
    by_cases hc : r.contract = c
    · exact ⟨_, rfl, by simp [hc], by simp [hc], by simp [hc], by simp [hc],
        fun hne => absurd hc hne⟩
    · exact ⟨r, by simp [hc], rfl, rfl, rfl, rfl, fun _ => rfl⟩

/-- Witness for C4 at a concrete two-row store, touching the first row. -/
theorem C4_witness :
    [w0, w1][0]? = some w0 ∧
      ∃ r', (update_blockchain_metrics [w0, w1] (str "0xAAA") 500 42 3000)[0]? = some r' ∧
        r'.name = w0.name ∧ r'.symbol = w0.symbol ∧ r'.price = w0.price ∧
        r'.contract = w0.contract ∧ (w0.contract ≠ str "0xAAA" → r' = w0) :=
  ⟨by decide,
    (C4_metrics_phase_frame [w0, w1] (str "0xAAA") 500 42 3000).2 0 w0 (by decide)⟩

/-! ## C7: failed or empty listing refresh leaves the store unchanged -/

/-- C7: for every store state, when the coin source raises or fails the
scrape returns the empty list, and whenever the scrape returns the empty
list `run_scraper` performs no store write: the store is exactly as
before the pass. -/
theorem C7_failed_refresh_noop (now : Int) (o : Except Unit ScrapePage)
    (s : Store) :
    (∀ e : Unit, o = Except.error e → scrape_grafun now o = []) ∧
    (scrape_grafun now o = [] → run_scraper now o s = s) := by
  constructor
  · rintro e rfl
    rfl
  · intro hempty
    simp [run_scraper, hempty]

/-- Witness for C7: an adapter failure at a concrete store. -/
theorem C7_witness :
    scrape_grafun 5 (Except.error ()) = [] ∧
      run_scraper 5 (Except.error ()) [w0] = [w0] :=
  ⟨(C7_failed_refresh_noop 5 (Except.error ()) [w0]).1 () rfl,
    (C7_failed_refresh_noop 5 (Except.error ()) [w0]).2
      ((C7_failed_refresh_noop 5 (Except.error ()) [w0]).1 () rfl)⟩

/-! ## C9: the empty query matches everything -/

/-- The pattern consisting of a single percent sign matches every string. -/
theorem likeMatch_pct (t : Str) : likeMatch ['%'] t = true := by
  show (tails t).any (fun u => likeMatch [] u) = true
  induction t with
  | nil => rfl
  | cons c t ih => simp [tails, ih]

/-- The pattern `%%` (the LIKE pattern built from the empty query) matches
every string. -/
theorem likeMatch_pct_pct (x : Str) : likeMatch ['%', '%'] x = true := by
  show (tails x).any (fun t => likeMatch ['%'] t) = true
  cases x with
  | nil => rfl
  | cons c t => simp [tails, likeMatch_pct]

/-- C9: for every store, `search_coin` with the empty query returns the
first record under the store's native ordering — `none` exactly when the
store is empty. -/
theorem C9_empty_query_first_row (s : Store) : search_coin s [] = s.head? := by
  unfold search_coin
  induction s with
  | nil => rfl
  | cons r t _ =>
    rw [List.find?_cons]
    simp [likeMatch_pct_pct]

/-! ## C8: lookup semantics of `search_coin` -/

/-- Two pointwise-equal predicates produce the same `any`. -/
theorem any_congr_mem {α : Type} (l : List α) (p q : α → Bool)
    (h : ∀ a ∈ l, p a = q a) : l.any p = l.any q := by
  induction l with
  | nil => rfl
  | cons a t ih =>
    simp only [List.any_cons, h a (by simp)]
    rw [ih (fun a ha => h a (by simp [ha]))]

/-- Two pointwise-equal predicates produce the same `find?`. -/
theorem find?_congr_mem {α : Type} (l : List α) (p q : α → Bool)
    (h : ∀ a ∈ l, p a = q a) : l.find? p = l.find? q := by
  induction l with
  | nil => rfl
  | cons a t ih =>
    rw [List.find?_cons, List.find?_cons, h a (by simp),
      ih (fun a ha => h a (by simp [ha]))]

/-- A successful `find?` returns the earliest satisfying element. -/
theorem find?_first {α : Type} :
    ∀ (l : List α) (p : α → Bool) (r : α), l.find? p = some r →
      ∃ i : Nat, l[i]? = some r ∧ p r = true ∧
        ∀ j : Nat, j < i → ∀ a, l[j]? = some a → p a = false := by
  intro l
  induction l with
  | nil => intro p r h; simp [List.find?] at h
  | cons a t ih =>
    intro p r h
    rw [List.find?_cons] at h
    by_cases ha : p a = true
    · simp only [ha] at h
      cases h
      exact ⟨0, by simp, ha, fun j hj => absurd hj (by omega)⟩
    · have ha' : p a = false := by simpa using ha
      simp only [ha'] at h
      obtain ⟨i, hget, hp, hbefore⟩ := ih p r h
      refine ⟨i + 1, by simpa using hget, hp, ?_⟩
      intro j hj b hb
      cases j with
      | zero =>
        simp at hb
        cases hb
        exact ha'
      | succ k =>
        exact hbefore k (by omega) b (by simpa using hb)

/-- `occursIn` searches for a leading occurrence along every suffix. -/
theorem occursIn_eq_any_tails (q s : Str) :
    occursIn q s = (tails s).any (fun t => leadsWith q t) := by
  induction s with
  | nil => simp [occursIn, tails]
  | cons c s ih => simp [occursIn, tails, ih]

/-- `tails` commutes with `map`. -/
theorem tails_map (f : Char → Char) (s : Str) :
    tails (s.map f) = (tails s).map (List.map f) := by
  induction s with
  | nil => rfl
  | cons c s ih => simp [tails, ih]

/-- For a wildcard-free pattern followed by a single `%`, LIKE matching is
the case-folded leading-occurrence test. -/
theorem likeMatch_append_pct :
    ∀ (q : Str), wildcardFree q → ∀ t : Str,
      likeMatch (q ++ ['%']) t = leadsWith (lowerStr q) (lowerStr t) := by
  intro q
  induction q with
  | nil =>
    intro _ t
    simp [likeMatch_pct, lowerStr, leadsWith]
  | cons a q ih =>
    intro hwf t
    have ha := hwf a (by simp)
    cases t with
    | nil =>
      simp [likeMatch, ha.1, ha.2, lowerStr, leadsWith]
    | cons b t =>
      simp only [List.cons_append, likeMatch, if_neg ha.1, if_neg ha.2,
        List.append_eq]
      rw [ih (fun c hc => hwf c (by simp [hc])) t]
      simp [lowerStr, leadsWith]

/-- The LIKE pattern `'%' ++ q ++ '%'` built by `search_coin` coincides, for
wildcard-free `q`, with the ASCII-case-insensitive substring test. -/
theorem likeMatch_eq_substrCI (q : Str) (hwf : wildcardFree q) (s : Str) :
    likeMatch ('%' :: q ++ ['%']) s = substrCI q s := by
  have h1 : likeMatch ('%' :: q ++ ['%']) s
      = (tails s).any (fun t => likeMatch (q ++ ['%']) t) := by
    simp [likeMatch]
  rw [h1, any_congr_mem (tails s) _ (fun t => leadsWith (lowerStr q) (lowerStr t))
    (fun t _ => likeMatch_append_pct q hwf t)]
  unfold substrCI
  rw [occursIn_eq_any_tails]
  unfold lowerStr
  rw [tails_map, List.any_map]
  rfl

/-- C8 (amended): for every store and every wildcard-free query,
`search_coin` agrees with the spec-modelled `searchSpec` (ASCII-case-
insensitive substring match against name OR symbol, first match in native
order); a returned row is the earliest substring match and `none` is
returned exactly when no row matches.  `search_coin` is total, so no
invocation raises. -/
theorem C8_search_lookup (s : Store) (q : Str) (hwf : wildcardFree q) :
    search_coin s q = searchSpec s q ∧
    (∀ r : Row, search_coin s q = some r →
      ∃ i : Nat, s[i]? = some r ∧
        (substrCI q r.name || substrCI q r.symbol) = true ∧
        ∀ j : Nat, j < i → ∀ a : Row, s[j]? = some a →
          (substrCI q a.name || substrCI q a.symbol) = false) ∧
    (search_coin s q = none ↔
      ∀ r ∈ s, (substrCI q r.name || substrCI q r.symbol) = false) := by
  have heq : search_coin s q = searchSpec s q := by
    unfold search_coin searchSpec
    exact find?_congr_mem s _ _
      (fun r _ => by rw [likeMatch_eq_substrCI q hwf, likeMatch_eq_substrCI q hwf])
  refine ⟨heq, ?_, ?_⟩
  · intro r hr
    rw [heq] at hr
    exact find?_first s _ r hr
  · rw [heq]
    unfold searchSpec
    constructor
    · intro hn r hrmem
      have := List.find?_eq_none.mp hn r hrmem
      simpa using this
    · intro hall
      apply List.find?_eq_none.mpr
      intro r hrmem
      simp [hall r hrmem]

/-- Witness for the amended C8 at a concrete store and query. -/
theorem C8_witness :
    wildcardFree (str "oge") ∧
      search_coin [w0, w1] (str "oge") = searchSpec [w0, w1] (str "oge") :=
  ⟨by decide, (C8_search_lookup [w0, w1] (str "oge") (by decide)).1⟩

/-- Counterexample to C8 as stated: the claim quantifies over every query
string, but the query `_` is a LIKE wildcard, so `search_coin` returns a
row that is not a case-insensitive substring match (the spec-modelled
lookup returns `none`). -/
theorem C8_counterexample :
    search_coin [w0] (str "_") = some w0 ∧
      searchSpec [w0] (str "_") = none ∧
      substrCI (str "_") w0.name = false ∧
      substrCI (str "_") w0.symbol = false := by
  decide

/-! ## Upsert lemmas shared by C1, C2 and C10 -/

/-- The `DO UPDATE` clause never changes a row's contract. -/
theorem owRow_contract (c : Coin) (r : Row) : (owRow c r).contract = r.contract := by
  unfold owRow
  split <;> rfl

/-- The `DO UPDATE` clause never changes a row's holders. -/
theorem owRow_holders (c : Coin) (r : Row) : (owRow c r).holders = r.holders := by
  unfold owRow
  split <;> rfl

/-- The `DO UPDATE` clause never changes a row's transfer count. -/
theorem owRow_transfers (c : Coin) (r : Row) :
    (owRow c r).transfers_24h = r.transfers_24h := by
  unfold owRow
  split <;> rfl

/-- Updating rows in place preserves the contract column. -/
theorem contracts_map_owRow (c : Coin) (s : Store) :
    (s.map (owRow c)).map Row.contract = s.map Row.contract := by
  rw [List.map_map]
  congr 1
  funext r
  exact owRow_contract c r

/-- The upsert's conflict test read as an existential. -/
theorem any_contract_iff (s : Store) (x : Str) :
    s.any (fun r => r.contract == x) = true ↔ ∃ r ∈ s, r.contract = x := by
  simp [List.any_eq_true]

/-- A row of the upsert result whose contract differs from the upserted one
was already in the store, unchanged. -/
theorem mem_upsertOne_of_ne {s : Store} {c : Coin} {r : Row}
    (hmem : r ∈ upsertOne s c) (hne : r.contract ≠ c.contract) : r ∈ s := by
  unfold upsertOne at hmem
  split at hmem
  · obtain ⟨r0, hr0, hback⟩ := List.mem_map.mp hmem
    by_cases h0 : r0.contract = c.contract
    · exfalso
      apply hne
      rw [← hback, owRow_contract, h0]
    · rwa [← hback, owRow, if_neg h0]
  · rcases List.mem_append.mp hmem with h | h
    · exact h
    · exfalso
      apply hne
      simp at h
      rw [h]

/-- A row of the upsert result whose contract equals the upserted one holds
the upserted record's listing fields. -/
theorem upsertOne_fields {s : Store} {c : Coin} {r : Row}
    (hmem : r ∈ upsertOne s c) (heq : r.contract = c.contract) :
    r.name = c.name ∧ r.symbol = c.symbol ∧ r.price = some c.price ∧
      r.last_updated = some c.last_updated := by
  unfold upsertOne at hmem
  split at hmem
  · obtain ⟨r0, hr0, hback⟩ := List.mem_map.mp hmem
    by_cases h0 : r0.contract = c.contract
    · rw [← hback, owRow, if_pos h0]
      exact ⟨rfl, rfl, rfl, rfl⟩
    · exfalso
      apply h0
      rw [← owRow_contract c r0, hback, heq]
  · rename_i hany
    rcases List.mem_append.mp hmem with h | h
    · exact absurd ((any_contract_iff s c.contract).mpr ⟨r, h, heq⟩) hany
    · simp at h
      rw [h]
      exact ⟨rfl, rfl, rfl, rfl⟩

/-- A row of the batch-upsert result whose contract matches no batch record
was already in the store, unchanged. -/
theorem mem_update_coin_data_of_ne :
    ∀ (b : List Coin) (s : Store) (r : Row), r ∈ update_coin_data s b →
      (∀ c ∈ b, r.contract ≠ c.contract) → r ∈ s := by
  intro b
  induction b with
  | nil => intro s r h _; exact h
  | cons c bs ih =>
    intro s r h hne
    have hr : r ∈ upsertOne s c :=
      ih (upsertOne s c) r h (fun c' hc' => hne c' (by simp [hc']))
    exact mem_upsertOne_of_ne hr (hne c (by simp))

/-- `lastMatch` is `none` exactly when no batch record carries the contract. -/
theorem lastMatch_none_iff (b : List Coin) (x : Str) :
    lastMatch b x = none ↔ ∀ c ∈ b, c.contract ≠ x := by
  induction b with
  | nil => simp [lastMatch]
  | cons c bs ih =>
    simp only [lastMatch]
    cases hbs : lastMatch bs x with
    | some c2 =>
      simp only [List.mem_cons]
      constructor
      · intro h; cases h
      · intro hall
        have hn : lastMatch bs x = none :=
          ih.mpr (fun c3 hc3 => hall c3 (Or.inr hc3))
        rw [hn] at hbs
        cases hbs
    | none =>
      simp only [List.mem_cons]
      by_cases hc : c.contract = x
      · constructor
        · intro h
          rw [if_pos hc] at h
          cases h
        · intro hall
          exact absurd hc (hall c (Or.inl rfl))
      · rw [if_neg hc]
        constructor
        · intro _ c2 hc2
          rcases hc2 with h | h
          · rw [h]; exact hc
          · exact (ih.mp hbs) c2 h
        · intro _
          rfl

/-- Main listing invariant: after a batch upsert, any row whose contract is
carried by some batch record holds the listing fields of the last such
record — in particular its `last_updated`. -/
theorem update_coin_data_lastMatch :
    ∀ (b : List Coin) (s : Store) (r : Row) (c : Coin),
      r ∈ update_coin_data s b → lastMatch b r.contract = some c →
      r.name = c.name ∧ r.symbol = c.symbol ∧ r.price = some c.price ∧
        r.last_updated = some c.last_updated := by
  intro b
  induction b with
  | nil => intro s r c _ hlast; cases hlast
  | cons c0 bs ih =>
    intro s r c hmem hlast
    simp only [lastMatch] at hlast
    cases hbs : lastMatch bs r.contract with
    | some c2 =>
      rw [hbs] at hlast
      have hc2 : c2 = c := by simpa using hlast
      rw [← hc2]
      exact ih (upsertOne s c0) r c2 hmem hbs
    | none =>
      rw [hbs] at hlast
      have hif : (if c0.contract = r.contract then some c0 else none) = some c :=
        hlast
      by_cases hc : c0.contract = r.contract
      · rw [if_pos hc] at hif
        have hc0 : c0 = c := by simpa using hif
        rw [← hc0]
        have hnobs : ∀ c2 ∈ bs, r.contract ≠ c2.contract := by
          intro c2 hc2 hcon
          exact ((lastMatch_none_iff bs r.contract).mp hbs) c2 hc2 hcon.symm
        have hr : r ∈ upsertOne s c0 :=
          mem_update_coin_data_of_ne bs (upsertOne s c0) r hmem hnobs
        exact upsertOne_fields hr hc.symm
      · rw [if_neg hc] at hif
        cases hif

/-! ## C1: listing-phase upserts and the metrics fields -/

/-- One upsert can only grow the store. -/
theorem upsertOne_length_le (s : Store) (c : Coin) :
    s.length ≤ (upsertOne s c).length := by
  unfold upsertOne
  split
  · simp
  · simp

/-- One upsert preserves, position by position, the holders and transfer
count of every pre-existing row. -/
theorem upsertOne_metrics_getElem (s : Store) (c : Coin) (i : Nat)
    (hi : i < s.length) :
    ((upsertOne s c)[i]?).map Row.holders = (s[i]?).map Row.holders ∧
    ((upsertOne s c)[i]?).map Row.transfers_24h = (s[i]?).map Row.transfers_24h := by
  unfold upsertOne
  split
  · rw [List.getElem?_map]
    cases hget : s[i]? with
    | none => simp
    | some r => simp [owRow_holders, owRow_transfers]
  · rw [List.getElem?_append, if_pos hi]
    exact ⟨rfl, rfl⟩

/-- A batch upsert preserves, position by position, the holders and transfer
count of every pre-existing row. -/
theorem update_coin_data_metrics_getElem :
    ∀ (b : List Coin) (s : Store) (i : Nat), i < s.length →
      ((update_coin_data s b)[i]?).map Row.holders = (s[i]?).map Row.holders ∧
      ((update_coin_data s b)[i]?).map Row.transfers_24h
        = (s[i]?).map Row.transfers_24h := by
  intro b
  induction b with
  | nil => intro s i _; exact ⟨rfl, rfl⟩
  | cons c bs ih =>
    intro s i hi
    have hi' : i < (upsertOne s c).length :=
      Nat.lt_of_lt_of_le hi (upsertOne_length_le s c)
    have hstep := upsertOne_metrics_getElem s c i hi
    have hrest := ih (upsertOne s c) i hi'
    exact ⟨hrest.1.trans hstep.1, hrest.2.trans hstep.2⟩

/-- C1 (amended): a listing-phase batch upsert leaves `holders` and
`transfers_24h` of every pre-existing row untouched, but it does NOT
preserve `last_updated`: every row whose contract is carried by the batch
ends up with the `last_updated` of the last batch record for that contract
(`update_coin_data` writes `last_updated = excluded.last_updated`). -/
theorem C1_listing_upsert_fields (s : Store) (b : List Coin) :
    (∀ i : Nat, i < s.length →
      ((update_coin_data s b)[i]?).map Row.holders = (s[i]?).map Row.holders ∧
      ((update_coin_data s b)[i]?).map Row.transfers_24h
        = (s[i]?).map Row.transfers_24h) ∧
    (∀ r ∈ update_coin_data s b, ∀ c : Coin, lastMatch b r.contract = some c →
      r.last_updated = some c.last_updated) :=
  ⟨fun i hi => update_coin_data_metrics_getElem b s i hi,
   fun r hr c hc => (update_coin_data_lastMatch b s r c hr hc).2.2.2⟩

/-- Counterexample to C1 as stated: in the upsert–updateMetrics–upsert
sequence for one contract, the second listing upsert changes the stored
`last_updated` (2000 written by the metrics phase becomes the batch's 3000),
even though `holders` and `transfers_24h` are preserved. -/
theorem C1_counterexample :
    (update_coin_data s2c1 [coinA2]).map Row.last_updated
        ≠ s2c1.map Row.last_updated ∧
      (update_coin_data s2c1 [coinA2]).map Row.last_updated = [some 3000] ∧
      s2c1.map Row.last_updated = [some 2000] ∧
      (update_coin_data s2c1 [coinA2]).map Row.holders = s2c1.map Row.holders ∧
      (update_coin_data s2c1 [coinA2]).map Row.transfers_24h
        = s2c1.map Row.transfers_24h := by
  decide

/-- Witness for the amended C1 at the concrete scenario store. -/
theorem C1_witness :
    (0 < s2c1.length ∧
      ((update_coin_data s2c1 [coinA2])[0]?).map Row.holders
        = (s2c1[0]?).map Row.holders) ∧
    (lastMatch [coinA2] coinA.contract = some coinA2 ∧
      ∀ r ∈ update_coin_data s2c1 [coinA2],
        ∀ c : Coin, lastMatch [coinA2] r.contract = some c →
          r.last_updated = some c.last_updated) :=
  ⟨⟨by decide, ((C1_listing_upsert_fields s2c1 [coinA2]).1 0 (by decide)).1⟩,
   ⟨by decide, (C1_listing_upsert_fields s2c1 [coinA2]).2⟩⟩

/-! ## C2: upsert idempotence and key uniqueness -/

/-- Applying two conflict updates for the same row keeps the last one. -/
theorem setL_setL (c1 c2 : Coin) (r : Row) : setL c2 (setL c1 r) = setL c2 r := by
  cases r
  rfl

/-- A conflict update whose values the row already holds is the identity. -/
theorem setL_self {c : Coin} {r : Row} (h1 : r.name = c.name)
    (h2 : r.symbol = c.symbol) (h3 : r.price = some c.price)
    (h4 : r.last_updated = some c.last_updated) : setL c r = r := by
  cases r with
  | mk n sy ct p ho tr lu =>
    obtain rfl : n = c.name := h1
    obtain rfl : sy = c.symbol := h2
    obtain rfl : p = some c.price := h3
    obtain rfl : lu = some c.last_updated := h4
    rfl

/-- An upsert preserves the presence of any contract. -/
theorem hasC_upsertOne_mono {s : Store} {x : Str} (c : Coin)
    (h : ∃ r ∈ s, r.contract = x) : ∃ r ∈ upsertOne s c, r.contract = x := by
  obtain ⟨r, hr, hx⟩ := h
  unfold upsertOne
  split
  · exact ⟨owRow c r, List.mem_map_of_mem _ hr, by rw [owRow_contract]; exact hx⟩
  · exact ⟨r, List.mem_append_left _ hr, hx⟩

/-- After an upsert the upserted contract is present. -/
theorem hasC_upsertOne_self (s : Store) (c : Coin) :
    ∃ r ∈ upsertOne s c, r.contract = c.contract := by
  unfold upsertOne
  split
  · rename_i hany
    obtain ⟨r, hr, hx⟩ := (any_contract_iff s c.contract).mp hany
    exact ⟨owRow c r, List.mem_map_of_mem _ hr, by rw [owRow_contract]; exact hx⟩
  · exact ⟨{ name := c.name, symbol := c.symbol, contract := c.contract,
             price := some c.price, holders := none, transfers_24h := none,
             last_updated := some c.last_updated },
      List.mem_append_right _ (by simp), rfl⟩

/-- A batch upsert preserves the presence of any contract. -/
theorem hasC_update_coin_data_mono :
    ∀ (b : List Coin) (s : Store) (x : Str), (∃ r ∈ s, r.contract = x) →
      ∃ r ∈ update_coin_data s b, r.contract = x := by
  intro b
  induction b with
  | nil => intro s x h; exact h
  | cons c bs ih =>
    intro s x h
    exact ih (upsertOne s c) x (hasC_upsertOne_mono c h)

/-- After a batch upsert every batch contract is present. -/
theorem hasC_update_coin_data_of_mem :
    ∀ (b : List Coin) (s : Store) (c : Coin), c ∈ b →
      ∃ r ∈ update_coin_data s b, r.contract = c.contract := by
  intro b
  induction b with
  | nil => intro s c h; cases h
  | cons c0 bs ih =>
    intro s c h
    rcases List.mem_cons.mp h with h | h
    · subst h
      exact hasC_update_coin_data_mono bs (upsertOne s c) c.contract
        (hasC_upsertOne_self s c)
    · exact ih (upsertOne s c0) c h

/-- An upsert for an already-present contract is a pure in-place update. -/
theorem upsertOne_eq_map {s : Store} {c : Coin}
    (h : ∃ r ∈ s, r.contract = c.contract) : upsertOne s c = s.map (owRow c) := by
  unfold upsertOne
  rw [if_pos ((any_contract_iff s c.contract).mpr h)]

/-- When every batch contract is already present, a batch upsert is a pure
in-place map of the per-row batch effect. -/
theorem update_coin_data_eq_map :
    ∀ (b : List Coin) (s : Store),
      (∀ c ∈ b, ∃ r ∈ s, r.contract = c.contract) →
      update_coin_data s b = s.map (owFold b) := by
  intro b
  induction b with
  | nil =>
    intro s _
    exact (map_id_of_mem s (fun r _ => rfl)).symm
  | cons c bs ih =>
    intro s h
    show update_coin_data (upsertOne s c) bs = s.map (owFold (c :: bs))
    rw [upsertOne_eq_map (h c (by simp))]
    rw [ih (s.map (owRow c)) (by
      intro c2 hc2
      obtain ⟨r, hr, hx⟩ := h c2 (List.mem_cons_of_mem c hc2)
      exact ⟨owRow c r, List.mem_map_of_mem _ hr, by rw [owRow_contract]; exact hx⟩)]
    rw [List.map_map]
    congr 1

/-- The row-level batch effect rewrites a row to the values of the last
batch record carrying its contract, and fixes rows whose contract the batch
does not carry. -/
theorem owFold_char :
    ∀ (b : List Coin) (r : Row),
      (lastMatch b r.contract = none → owFold b r = r) ∧
      (∀ c : Coin, lastMatch b r.contract = some c → owFold b r = setL c r) := by
  intro b
  induction b with
  | nil =>
    intro r
    exact ⟨fun _ => rfl, fun c h => by cases h⟩
  | cons c0 bs ih =>
    intro r
    constructor
    · intro hnone
      have hall := (lastMatch_none_iff _ _).mp hnone
      have hbs : lastMatch bs r.contract = none :=
        (lastMatch_none_iff _ _).mpr (fun c2 h2 => hall c2 (List.mem_cons_of_mem c0 h2))
      have hc0 : c0.contract ≠ r.contract := hall c0 (List.mem_cons_self c0 bs)
      show owFold bs (owRow c0 r) = r
      rw [show owRow c0 r = r from by unfold owRow; rw [if_neg (fun h => hc0 h.symm)]]
      exact (ih r).1 hbs
    · intro c hsome
      simp only [lastMatch] at hsome
      cases hbs : lastMatch bs r.contract with
      | some c2 =>
        rw [hbs] at hsome
        have hc2 : c2 = c := by simpa using hsome
        subst hc2
        show owFold bs (owRow c0 r) = setL c2 r
        by_cases hc : r.contract = c0.contract
        · rw [show owRow c0 r = setL c0 r from by unfold owRow setL; rw [if_pos hc]]
          rw [(ih (setL c0 r)).2 c2 hbs, setL_setL]
        · rw [show owRow c0 r = r from by unfold owRow; rw [if_neg hc]]
          exact (ih r).2 c2 hbs
      | none =>
        rw [hbs] at hsome
        have hif : (if c0.contract = r.contract then some c0 else none) = some c :=
          hsome
        by_cases hc : c0.contract = r.contract
        · rw [if_pos hc] at hif
          have hc0 : c0 = c := by simpa using hif
          show owFold bs (owRow c0 r) = setL c r
          rw [show owRow c0 r = setL c0 r from by unfold owRow setL; rw [if_pos hc.symm]]
          rw [(ih (setL c0 r)).1 hbs]
          rw [hc0]
        · rw [if_neg hc] at hif
          cases hif

/-- One upsert preserves the UNIQUE constraint on `contract`. -/
theorem uniq_upsertOne (s : Store) (c : Coin) (hu : Uniq s) :
    Uniq (upsertOne s c) := by
  unfold upsertOne
  split
  · unfold Uniq
    rw [contracts_map_owRow]
    exact hu
  · rename_i hany
    unfold Uniq
    rw [List.map_append]
    rw [List.nodup_append]
    refine ⟨hu, by simp, ?_⟩
    intro x hx hx2
    simp at hx2
    subst hx2
    obtain ⟨r, hr, hrc⟩ := List.mem_map.mp hx
    exact hany ((any_contract_iff s c.contract).mpr ⟨r, hr, hrc⟩)

/-- A batch upsert preserves the UNIQUE constraint on `contract`. -/
theorem uniq_update_coin_data :
    ∀ (b : List Coin) (s : Store), Uniq s → Uniq (update_coin_data s b) := by
  intro b
  induction b with
  | nil => intro s hu; exact hu
  | cons c bs ih =>
    intro s hu
    exact ih (upsertOne s c) (uniq_upsertOne s c hu)

/-- C2: for every store satisfying the schema's UNIQUE constraint and every
batch, re-running the identical batch upsert is a no-op (same rows, same
order, same values), and the upsert never introduces a duplicate contract
row. -/
theorem C2_upsert_idempotent_unique (s : Store) (b : List Coin) (hu : Uniq s) :
    update_coin_data (update_coin_data s b) b = update_coin_data s b ∧
    Uniq (update_coin_data s b) := by
  constructor
  · rw [update_coin_data_eq_map b (update_coin_data s b)
      (fun c hc => hasC_update_coin_data_of_mem b s c hc)]
    apply map_id_of_mem
    intro r hr
    cases hlm : lastMatch b r.contract with
    | none => exact (owFold_char b r).1 hlm
    | some c =>
      rw [(owFold_char b r).2 c hlm]
      obtain ⟨h1, h2, h3, h4⟩ := update_coin_data_lastMatch b s r c hr hlm
      exact setL_self h1 h2 h3 h4
  · exact uniq_update_coin_data b s hu

/-- Witness for C2: a concrete two-row store and a batch that updates one
existing contract and inserts one new contract. -/
theorem C2_witness :
    Uniq [w0, w1] ∧
      (update_coin_data (update_coin_data [w0, w1] [coinA2, coinC]) [coinA2, coinC]
          = update_coin_data [w0, w1] [coinA2, coinC] ∧
        Uniq (update_coin_data [w0, w1] [coinA2, coinC])) :=
  ⟨by decide, C2_upsert_idempotent_unique [w0, w1] [coinA2, coinC] (by decide)⟩

/-! ## C10: scraped contracts start with 0x; linkless elements collapse -/

/-- A guarded `some` equation yields its guard and its payload. -/
theorem ifSomeEq {α : Type} {p : Prop} [Decidable p] {R c : α}
    (h : (if p then some R else none) = some c) : p ∧ R = c := by
  by_cases hp : p
  · rw [if_pos hp] at h
    exact ⟨hp, by injection h⟩
  · rw [if_neg hp] at h
    cases h

/-- Every record the per-element processing emits passes the `0x` filter. -/
theorem processElement_startsWith (now : Int) (e : CoinElement) (c : Coin)
    (h : processElement now e = some c) : startsWith0x c.contract = true := by
  unfold processElement at h
  cases hl : e.contractLookup with
  | error u =>
    rw [hl] at h
    cases h
  | ok contractEl =>
    rw [hl] at h
    cases hp : pyFloatPrice e.priceText with
    | error u =>
      rw [hp] at h
      cases h
    | ok price =>
      rw [hp] at h
      obtain ⟨hs, hRc⟩ := ifSomeEq h
      rw [← hRc]
      exact hs

/-- An element whose contract lookup found no anchor is assigned the fixed
zero address. -/
theorem processElement_zeroAddr (now : Int) (e : CoinElement) (c : Coin)
    (hl : e.contractLookup = Except.ok none)
    (h : processElement now e = some c) : c.contract = zeroAddr := by
  unfold processElement at h
  rw [hl] at h
  cases hp : pyFloatPrice e.priceText with
  | error u =>
    rw [hp] at h
    cases h
  | ok price =>
    rw [hp] at h
    obtain ⟨_, hRc⟩ := ifSomeEq h
    rw [← hRc]

/-- Under the UNIQUE constraint at most one row carries any contract. -/
theorem countContract_le_one_of_uniq :
    ∀ (s : Store) (x : Str), Uniq s → countContract s x ≤ 1 := by
  intro s x
  induction s with
  | nil => intro _; exact Nat.zero_le 1
  | cons r t ih =>
    intro hu
    have hu' : (t.map Row.contract).Nodup ∧ r.contract ∉ t.map Row.contract := by
      have := hu
      unfold Uniq at this
      rw [List.map_cons, List.nodup_cons] at this
      exact ⟨this.2, this.1⟩
    unfold countContract
    rw [List.filter_cons]
    by_cases hrx : r.contract = x
    · rw [if_pos (by simp [hrx])]
      have hzero : (t.filter (fun r2 => r2.contract == x)).length = 0 := by
        rw [List.length_eq_zero, List.filter_eq_nil_iff]
        intro r2 hr2 hc2
        apply hu'.2
        rw [hrx]
        exact List.mem_map.mpr ⟨r2, hr2, by simpa using hc2⟩
      simp only [List.length_cons]
      omega
    · rw [if_neg (by simp [hrx])]
      exact ih hu'.1

/-- C10: every record scraped by `scrape_grafun` has a contract starting
with `0x`; an element from which no contract link could be extracted is
assigned the fixed zero address (which passes that filter); and after any
batch upsert on a store satisfying the UNIQUE constraint, at most one row
carries any given contract — so records sharing the fallback address
collapse into one row. -/
theorem C10_scraper_zero_address (now : Int) (o : Except Unit ScrapePage) :
    (∀ c ∈ scrape_grafun now o, startsWith0x c.contract = true) ∧
    (∀ (page : ScrapePage) (e : CoinElement) (c : Coin), o = Except.ok page →
      e ∈ page.elements → e.contractLookup = Except.ok none →
      processElement now e = some c → c.contract = zeroAddr) ∧
    (∀ (s : Store) (b : List Coin) (x : Str), Uniq s →
      countContract (update_coin_data s b) x ≤ 1) := by
  refine ⟨?_, ?_, ?_⟩
  · intro c hc
    unfold scrape_grafun at hc
    cases o with
    | error u => cases hc
    | ok page =>
      have hc2 : c ∈ (if page.elements.isEmpty = true then []
          else List.filterMap (processElement now) page.elements) := hc
      by_cases he : page.elements.isEmpty = true
      · rw [if_pos he] at hc2
        cases hc2
      · rw [if_neg he] at hc2
        obtain ⟨e, _, hpe⟩ := List.mem_filterMap.mp hc2
        exact processElement_startsWith now e c hpe
  · intro page e c _ _ hl hp
    exact processElement_zeroAddr now e c hl hp
  · intro s b x hu
    exact countContract_le_one_of_uniq (update_coin_data s b) x
      (uniq_update_coin_data b s hu)

/-- Witness for C10: a concrete page of two linkless elements, whose records
share the zero address and collapse to at most one row on upsert. -/
theorem C10_witness :
    (∀ c ∈ scrape_grafun 7 (Except.ok pageZ), startsWith0x c.contract = true) ∧
    (elemNoLink.contractLookup = Except.ok none ∧
      processElement 7 elemNoLink = some coinZero ∧
      coinZero.contract = zeroAddr) ∧
    (Uniq [w0] ∧
      countContract (update_coin_data [w0] [coinZero, coinZero]) zeroAddr ≤ 1) :=
  ⟨(C10_scraper_zero_address 7 (Except.ok pageZ)).1,
   ⟨by decide, by decide,
    (C10_scraper_zero_address 7 (Except.ok pageZ)).2.1 pageZ elemNoLink coinZero
      rfl (by decide) (by decide) (by decide)⟩,
   ⟨by decide,
    (C10_scraper_zero_address 7 (Except.ok pageZ)).2.2 [w0] [coinZero, coinZero]
      zeroAddr (by decide)⟩⟩

/-! ## C5 and C6: the metrics pass -/

/-- Event component of one loop iteration. -/
theorem processContract_snd (env : Str → ContractEnv) (s : Store)
    (tr : List Event) (c : Str) :
    (processContract env (s, tr) c).2 = tr ++ eventsFor env c := by
  simp only [processContract, eventsFor]
  by_cases hw : (env c).writeRaises = true <;> simp [hw]

/-- Store component of one loop iteration. -/
theorem processContract_fst (env : Str → ContractEnv) (s : Store)
    (tr : List Event) (c : Str) :
    (processContract env (s, tr) c).1 = stepStore env s c := by
  simp only [processContract, stepStore]
  by_cases hw : (env c).writeRaises = true <;> simp [hw]

/-- The loop emits the per-contract event blocks in list order. -/
theorem foldl_process_trace (env : Str → ContractEnv) :
    ∀ (L : List Str) (s : Store) (tr : List Event),
      (L.foldl (processContract env) (s, tr)).2 = tr ++ iterTrace env L := by
  intro L
  induction L with
  | nil => intro s tr; simp [iterTrace]
  | cons c t ih =>
    intro s tr
    show (t.foldl (processContract env) (processContract env (s, tr) c)).2 = _
    rcases hstep : processContract env (s, tr) c with ⟨s2, tr2⟩
    have htr2 : tr2 = tr ++ eventsFor env c := by
      rw [← processContract_snd env s tr c, hstep]
    rw [ih s2 tr2, htr2, iterTrace, List.append_assoc]

/-- The loop's store component ignores the trace. -/
theorem foldl_process_store (env : Str → ContractEnv) :
    ∀ (L : List Str) (s : Store) (tr : List Event),
      (L.foldl (processContract env) (s, tr)).1 = L.foldl (stepStore env) s := by
  intro L
  induction L with
  | nil => intro s tr; rfl
  | cons c t ih =>
    intro s tr
    show (t.foldl (processContract env) (processContract env (s, tr) c)).1 = _
    rcases hstep : processContract env (s, tr) c with ⟨s2, tr2⟩
    have hs2 : s2 = stepStore env s c := by
      rw [← processContract_fst env s tr c, hstep]
    rw [ih s2 tr2, hs2]
    rfl

/-- The whole pass produces exactly the per-contract event blocks, in the
order returned by `get_all_contracts`. -/
theorem update_blockchain_data_trace (env : Str → ContractEnv) (s : Store) :
    (update_blockchain_data env s).2 = iterTrace env (get_all_contracts s) := by
  simp only [update_blockchain_data]
  by_cases he : (get_all_contracts s).isEmpty = true
  · rw [if_pos he]
    rw [List.isEmpty_iff.mp he]
    rfl
  · rw [if_neg he]
    rw [foldl_process_trace env (get_all_contracts s) s []]
    rfl

/-- The whole pass's store is the fold of the per-contract store steps. -/
theorem update_blockchain_data_store (env : Str → ContractEnv) (s : Store) :
    (update_blockchain_data env s).1 = (get_all_contracts s).foldl (stepStore env) s := by
  simp only [update_blockchain_data]
  by_cases he : (get_all_contracts s).isEmpty = true
  · rw [if_pos he]
    rw [List.isEmpty_iff.mp he]
    rfl
  · rw [if_neg he]
    exact foldl_process_store env (get_all_contracts s) s []

/-- A metrics write preserves the contract column. -/
theorem contracts_update_metrics (s : Store) (x : Str) (h t tm : Int) :
    get_all_contracts (update_blockchain_metrics s x h t tm) = get_all_contracts s := by
  unfold get_all_contracts update_blockchain_metrics
  rw [List.map_map]
  congr 1
  funext r
  by_cases hc : r.contract = x <;> simp [hc]

/-- One loop step preserves the contract column. -/
theorem contracts_stepStore (env : Str → ContractEnv) (s : Store) (c : Str) :
    get_all_contracts (stepStore env s c) = get_all_contracts s := by
  simp only [stepStore]
  by_cases hw : (env c).writeRaises = true
  · simp [hw]
  · simp [hw, contracts_update_metrics]

/-- The whole loop preserves the contract column. -/
theorem contracts_stepStore_fold (env : Str → ContractEnv) :
    ∀ (L : List Str) (s : Store),
      get_all_contracts (L.foldl (stepStore env) s) = get_all_contracts s := by
  intro L
  induction L with
  | nil => intro s; rfl
  | cons c t ih =>
    intro s
    rw [List.foldl_cons, ih (stepStore env s c), contracts_stepStore]

/-- Every row carrying the written contract ends with exactly the written
metric values. -/
theorem update_metrics_mem_eq {s : Store} {x : Str} {h t tm : Int} {r : Row}
    (hmem : r ∈ update_blockchain_metrics s x h t tm) (hc : r.contract = x) :
    r.holders = some h ∧ r.transfers_24h = some t ∧ r.last_updated = some tm := by
  unfold update_blockchain_metrics at hmem
  obtain ⟨r0, hr0, hback⟩ := List.mem_map.mp hmem
  by_cases h0 : r0.contract = x
  · rw [← hback, if_pos h0]
    exact ⟨rfl, rfl, rfl⟩
  · exfalso
    rw [← hback, if_neg h0] at hc
    exact h0 hc

/-- A property of the rows carrying contract `c` is preserved by the loop
steps of every other contract. -/
theorem stepStore_fold_preserve (env : Str → ContractEnv) (c : Str)
    (P : Row → Prop) :
    ∀ (L : List Str) (s : Store), (∀ c2 ∈ L, c2 ≠ c) →
      (∀ r ∈ s, r.contract = c → P r) →
      ∀ r ∈ L.foldl (stepStore env) s, r.contract = c → P r := by
  intro L
  induction L with
  | nil => intro s _ hbase r hr hc; exact hbase r hr hc
  | cons c0 t ih =>
    intro s hne hbase r hr hc
    refine ih (stepStore env s c0) (fun c2 h2 => hne c2 (List.mem_cons_of_mem c0 h2))
      ?_ r hr hc
    intro r2 hr2 hc2
    simp only [stepStore] at hr2
    by_cases hw : (env c0).writeRaises = true
    · rw [if_pos hw] at hr2
      exact hbase r2 hr2 hc2
    · rw [if_neg hw] at hr2
      unfold update_blockchain_metrics at hr2
      obtain ⟨r0, hr0, hback⟩ := List.mem_map.mp hr2
      by_cases h0 : r0.contract = c0
      · exfalso
        have hcon : r2.contract = c0 := by
          rw [← hback, if_pos h0]
          exact h0
        exact hne c0 (List.mem_cons_self c0 t) (by rw [← hc2, hcon])
      · rw [← hback, if_neg h0]
        apply hbase r0 hr0
        rw [← hback, if_neg h0] at hc2
        exact hc2

/-- After the loop has run over a duplicate-free contract list containing
`c`, and `c`'s iteration did not raise, every row carrying `c` holds exactly
the fetched metric values and the write-time timestamp. -/
theorem stepStore_fold_metrics (env : Str → ContractEnv) :
    ∀ (L : List Str) (s : Store) (c : Str), L.Nodup → c ∈ L →
      (env c).writeRaises = false →
      ∀ r ∈ L.foldl (stepStore env) s, r.contract = c →
        r.holders = some (fetch_holders_count (env c).holdersResult) ∧
        r.transfers_24h
          = some (fetch_transfers_24h (env c).nowAtTransfers (env c).transfersResult) ∧
        r.last_updated = some (env c).nowAtWrite := by
  intro L
  induction L with
  | nil => intro s c _ hc; cases hc
  | cons c0 t ih =>
    intro s c hnd hc hw r hr hcr
    rcases List.mem_cons.mp hc with hceq | hct
    · subst hceq
      have hc0t : c ∉ t := (List.nodup_cons.mp hnd).1
      refine stepStore_fold_preserve env c
        (fun r2 => r2.holders = some (fetch_holders_count (env c).holdersResult) ∧
          r2.transfers_24h
            = some (fetch_transfers_24h (env c).nowAtTransfers (env c).transfersResult) ∧
          r2.last_updated = some (env c).nowAtWrite)
        t (stepStore env s c)
        (fun c2 h2 he => hc0t (he ▸ h2)) ?_ r hr hcr
      intro r2 hr2 hc2
      simp only [stepStore] at hr2
      rw [if_neg (by rw [hw]; exact Bool.false_ne_true)] at hr2
      exact update_metrics_mem_eq hr2 hc2
    · exact ih (stepStore env s c0) c (List.nodup_cons.mp hnd).2 hct hw r hr hcr

/-- The block of events of contract `c` contains its transfer-count call. -/
theorem mem_iterTrace_transfer (env : Str → ContractEnv) :
    ∀ (L : List Str) (c : Str), c ∈ L →
      Event.transferCall c ∈ iterTrace env L := by
  intro L
  induction L with
  | nil => intro c hc; cases hc
  | cons c0 t ih =>
    intro c hc
    rcases List.mem_cons.mp hc with hceq | hct
    · subst hceq
      apply List.mem_append_left
      simp [eventsFor]
    · exact List.mem_append_right _ (ih c hct)

/-- A failed holder fetch (exception, timeout or unsuccessful API status)
yields the value 0. -/
theorem fetch_holders_failed (o : NetResult HoldersResponse)
    (hfail : holderFetchFailed o) : fetch_holders_count o = 0 := by
  cases o with
  | exn => rfl
  | ok data =>
    have hne : data.status ≠ statusOk := hfail
    show (if data.status = statusOk then
        (match data.countTokenHolders with
         | some n => n
         | none => (data.result.length : Int))
      else (0 : Int)) = (0 : Int)
    rw [if_neg hne]

/-- C5: when the holder-count fetch for a present contract fails in any way,
the value 0 is returned instead of an exception propagating, the 0 is what
the pass stores as that contract's holders, and the transfer-count fetch for
the same contract still executes. -/
theorem C5_zero_on_failure (env : Str → ContractEnv) (s : Store) (c : Str)
    (hu : Uniq s) (hc : c ∈ get_all_contracts s)
    (hfail : holderFetchFailed (env c).holdersResult)
    (hw : (env c).writeRaises = false) :
    fetch_holders_count (env c).holdersResult = 0 ∧
    Event.transferCall c ∈ (update_blockchain_data env s).2 ∧
    ∀ r ∈ (update_blockchain_data env s).1, r.contract = c →
      r.holders = some 0 := by
  have hzero := fetch_holders_failed (env c).holdersResult hfail
  refine ⟨hzero, ?_, ?_⟩
  · rw [update_blockchain_data_trace]
    exact mem_iterTrace_transfer env (get_all_contracts s) c hc
  · intro r hr hcr
    rw [update_blockchain_data_store] at hr
    have := (stepStore_fold_metrics env (get_all_contracts s) s c hu hc hw r hr hcr).1
    rw [this, hzero]

/-- C6: one metrics pass walks the contracts sequentially in the order
returned by `get_all_contracts`, emitting each contract's adapter calls and
write in that order; a raising iteration only loses its own write — the
contract column is untouched and every non-raising contract's row ends with
exactly its fetched metric values, regardless of failures elsewhere in the
batch. -/
theorem C6_batch_isolation_order (env : Str → ContractEnv) (s : Store)
    (hu : Uniq s) :
    (update_blockchain_data env s).2 = iterTrace env (get_all_contracts s) ∧
    get_all_contracts (update_blockchain_data env s).1 = get_all_contracts s ∧
    ∀ c ∈ get_all_contracts s, (env c).writeRaises = false →
      (∃ r ∈ (update_blockchain_data env s).1, r.contract = c) ∧
      ∀ r ∈ (update_blockchain_data env s).1, r.contract = c →
        r.holders = some (fetch_holders_count (env c).holdersResult) ∧
        r.transfers_24h
          = some (fetch_transfers_24h (env c).nowAtTransfers (env c).transfersResult) ∧
        r.last_updated = some (env c).nowAtWrite := by
  refine ⟨update_blockchain_data_trace env s, ?_, ?_⟩
  · rw [update_blockchain_data_store]
    exact contracts_stepStore_fold env (get_all_contracts s) s
  · intro c hc hw
    constructor
    · have hpres : get_all_contracts (update_blockchain_data env s).1
          = get_all_contracts s := by
        rw [update_blockchain_data_store]
        exact contracts_stepStore_fold env (get_all_contracts s) s
      have : c ∈ get_all_contracts (update_blockchain_data env s).1 := by
        rw [hpres]; exact hc
      obtain ⟨r, hr, hrc⟩ := List.mem_map.mp this
      exact ⟨r, hr, hrc⟩
    · intro r hr hcr
      rw [update_blockchain_data_store] at hr
      exact stepStore_fold_metrics env (get_all_contracts s) s c hu hc hw r hr hcr

/-- Witness for C5: a one-row store whose contract's holder fetch raises. -/
theorem C5_witness :
    (Uniq [w0] ∧ str "0xAAA" ∈ get_all_contracts [w0] ∧
      holderFetchFailed (envFail (str "0xAAA")).holdersResult ∧
      (envFail (str "0xAAA")).writeRaises = false) ∧
    (fetch_holders_count (envFail (str "0xAAA")).holdersResult = 0 ∧
      Event.transferCall (str "0xAAA") ∈ (update_blockchain_data envFail [w0]).2 ∧
      ∀ r ∈ (update_blockchain_data envFail [w0]).1, r.contract = str "0xAAA" →
        r.holders = some 0) :=
  ⟨⟨by decide, by decide, by decide, by decide⟩,
   C5_zero_on_failure envFail [w0] (str "0xAAA") (by decide) (by decide)
     (by decide) (by decide)⟩

/-- Witness for C6: a two-row store whose first contract raises while the
second still receives its update. -/
theorem C6_witness :
    Uniq [w0, w1] ∧
      ((update_blockchain_data envMix [w0, w1]).2
          = iterTrace envMix (get_all_contracts [w0, w1]) ∧
        get_all_contracts (update_blockchain_data envMix [w0, w1]).1
          = get_all_contracts [w0, w1] ∧
        ∀ c ∈ get_all_contracts [w0, w1], (envMix c).writeRaises = false →
          (∃ r ∈ (update_blockchain_data envMix [w0, w1]).1, r.contract = c) ∧
          ∀ r ∈ (update_blockchain_data envMix [w0, w1]).1, r.contract = c →
            r.holders = some (fetch_holders_count (envMix c).holdersResult) ∧
            r.transfers_24h = some (fetch_transfers_24h (envMix c).nowAtTransfers
              (envMix c).transfersResult) ∧
            r.last_updated = some (envMix c).nowAtWrite) :=
  ⟨by decide, C6_batch_isolation_order envMix [w0, w1] (by decide)⟩
